import Mathlib

/-!
Verification development for a typed projection layer (`sled-bincode`) over an
ordered byte-oriented storage engine.  The typed layer (`src/lib.rs`,
`src/result.rs`) is embedded shallowly; the external codec (bincode, standard
configuration) and the external storage engine (sled) are modelled from the
spec's stated assumptions about them.  Byte sequences are `List Nat` whose
elements are intended to be `< 256`.
-/

namespace SledBincode

/-- Opaque model of `bincode::error::EncodeError`.  Modelled from the spec:
encoding "fails with EncodeError only if the value's shape is not representable
under the fixed codec (e.g., unsupported structural feature)". -/
inductive EncodeError where
  | unsupported
  deriving DecidableEq, Repr

/-- Opaque model of `bincode::error::DecodeError` (malformed or truncated
input for the expected type). -/
inductive DecodeError where
  | malformed
  deriving DecidableEq, Repr

/-- The library error taxonomy from `src/result.rs` (`Error`).  The sled
error payload is irrelevant to the claims and is left out. -/
inductive Error where
  | sledError
  | decodeError (e : DecodeError)
  | encodeError (e : EncodeError)
  deriving DecidableEq, Repr

/-! ### Little-endian fixed-width byte encoding (modelled from the spec's
fixed codec configuration: bincode `standard()`, little endian, varint). -/

/-- `w`-byte little-endian encoding of `n` (the low `8*w` bits). -/
def natToLE : Nat → Nat → List Nat
  | 0, _ => []
  | w + 1, n => n % 256 :: natToLE w (n / 256)

/-- Read back a little-endian byte sequence. -/
def natFromLE : List Nat → Nat
  | [] => 0
  | b :: bs => b + 256 * natFromLE bs

/-- Split off exactly `w` bytes from the front of a byte stream. -/
def takeBytes : Nat → List Nat → Option (List Nat × List Nat)
  | 0, bs => some ([], bs)
  | _ + 1, [] => none
  | w + 1, b :: bs => (takeBytes w bs).map (fun p => (b :: p.1, p.2))

/-- Modelled from the spec: bincode standard-configuration variable-length
encoding of an unsigned integer (up to 64 bits): values below 251 are a single
byte; otherwise a width tag 251/252/253 followed by a 2/4/8-byte
little-endian payload. -/
def varintEncode (n : Nat) : List Nat :=
  if n < 251 then [n]
  else if n < 2 ^ 16 then 251 :: natToLE 2 n
  else if n < 2 ^ 32 then 252 :: natToLE 4 n
  else 253 :: natToLE 8 n

/-- Modelled from the spec: decoding of the variable-length unsigned integer
encoding; returns the value and the remaining bytes. -/
def varintDecode : List Nat → Option (Nat × List Nat)
  | [] => none
  | b :: bs =>
    if b < 251 then some (b, bs)
    else if b = 251 then (takeBytes 2 bs).map (fun p => (natFromLE p.1, p.2))
    else if b = 252 then (takeBytes 4 bs).map (fun p => (natFromLE p.1, p.2))
    else if b = 253 then (takeBytes 8 bs).map (fun p => (natFromLE p.1, p.2))
    else none

/-! ### The value universe crossing the codec boundary.

Key/Value types are arbitrary `Encode + BorrowDecode` types; the claims are
settled over a representative universe: 32- and 64-bit unsigned integers,
borrowed strings/byte slices (length-prefixed byte payloads), structs of two
fields (encoded as field concatenation, like the test type
`Person { name, age }`), and a marker for a shape the fixed codec cannot
represent (the spec's "unsupported structural feature", whose encoding
fails). -/

/-- Types of the representative universe (determines how bytes are decoded,
playing the role of the `Entry` associated types). -/
inductive Ty where
  | tu32
  | tu64
  | tstr
  | tpair (a b : Ty)
  | tunsupported
  deriving DecidableEq, Repr

/-- Values of the representative universe. -/
inductive BVal where
  | vu32 (n : Nat)
  | vu64 (n : Nat)
  | vstr (s : List Nat)
  | vpair (a b : BVal)
  | vunsupported
  deriving DecidableEq, Repr

/-- The type of a value. -/
def tyOf : BVal → Ty
  | .vu32 _ => .tu32
  | .vu64 _ => .tu64
  | .vstr _ => .tstr
  | .vpair a b => .tpair (tyOf a) (tyOf b)
  | .vunsupported => .tunsupported

/-- A value is representable: integers fit their width, string payloads are
bytes with a length expressible as `u64`, and no unsupported shape occurs. -/
def wf : BVal → Bool
  | .vu32 n => n < 2 ^ 32
  | .vu64 n => n < 2 ^ 64
  | .vstr s => s.length < 2 ^ 64 && s.all (· < 256)
  | .vpair a b => wf a && wf b
  | .vunsupported => false

/-- Modelled from the spec: bincode encoding under the one fixed
configuration.  Deterministic; fails only on the unsupported shape. -/
def bincodeEncode : BVal → Except EncodeError (List Nat)
  | .vu32 n => .ok (varintEncode n)
  | .vu64 n => .ok (varintEncode n)
  | .vstr s => .ok (varintEncode s.length ++ s)
  | .vpair a b =>
    match bincodeEncode a with
    | .error e => .error e
    | .ok ba =>
      match bincodeEncode b with
      | .error e => .error e
      | .ok bb => .ok (ba ++ bb)
  | .vunsupported => .error .unsupported

/-- Modelled from the spec: bincode decoding at a given type; returns the
decoded value and the unconsumed remainder of the input, failing on malformed
or truncated input. -/
def bincodeDecodeAt : Ty → List Nat → Except DecodeError (BVal × List Nat)
  | .tu32, bs =>
    match varintDecode bs with
    | some (n, rest) => if n < 2 ^ 32 then .ok (.vu32 n, rest) else .error .malformed
    | none => .error .malformed
  | .tu64, bs =>
    match varintDecode bs with
    | some (n, rest) => if n < 2 ^ 64 then .ok (.vu64 n, rest) else .error .malformed
    | none => .error .malformed
  | .tstr, bs =>
    match varintDecode bs with
    | some (n, rest) =>
      if n ≤ rest.length then .ok (.vstr (rest.take n), rest.drop n) else .error .malformed
    | none => .error .malformed
  | .tpair a b, bs =>
    match bincodeDecodeAt a bs with
    | .error e => .error e
    | .ok (va, rest) =>
      match bincodeDecodeAt b rest with
      | .error e => .error e
      | .ok (vb, rest') => .ok (.vpair va vb, rest')
  | .tunsupported, _ => .error .malformed

/-! ### The small-buffer encode target (`Buffer` in `src/lib.rs`).

`Buffer` wraps a `SmallVec<[u8; 16]>` filled only by appending encoded bytes,
so it has spilled to the heap exactly when its length exceeds the inline
capacity of 16. -/

/-- The byte contents of the `SmallVec<[u8; 16]>` inside `Buffer`. -/
structure Buffer where
  data : List Nat
  deriving DecidableEq, Repr

/-- `SmallVec::spilled` for a vector built by appending: the encoded size
exceeded the inline capacity of 16 bytes. -/
def Buffer.spilled (b : Buffer) : Bool :=
  16 < b.data.length

/-- `Buffer::as_ref` (`AsRef<[u8]> for Buffer`): the written bytes. -/
def Buffer.asRef (b : Buffer) : List Nat :=
  b.data

/-- `IVec::from(Vec<u8>)`: an engine-owned byte sequence with those bytes. -/
def ivecFromVec (l : List Nat) : List Nat := l

/-- `IVec::from(&[u8])`: an engine-owned copy of the slice's bytes. -/
def ivecFromSlice (l : List Nat) : List Nat := l

/-- `From<Buffer> for IVec` (`src/lib.rs`): a spilled buffer moves its heap
vector into the engine byte type, a non-spilled one copies its inline slice. -/
def ivecOfBuffer (b : Buffer) : List Nat :=
  if b.spilled then ivecFromVec b.data else ivecFromSlice b.data

/-- `encode` in `src/lib.rs`: encode into a fresh small buffer, wrapping a
codec failure as `Error::EncodeError`. -/
def encode (v : BVal) : Except Error Buffer :=
  match bincodeEncode v with
  | .ok bs => .ok ⟨bs⟩
  | .error e => .error (.encodeError e)

/-- `decode` in `src/lib.rs`: `bincode::decode_from_slice` at the expected
type, discarding the consumed-length component, wrapping a codec failure as
`Error::DecodeError`. -/
def decode (t : Ty) (bs : List Nat) : Except Error BVal :=
  match bincodeDecodeAt t bs with
  | .ok (v, _) => .ok v
  | .error e => .error (.decodeError e)

/-! ### The storage engine model.

Modelled from the spec: sled is an ordered byte-oriented map per named
partition; raw keys and values are engine-owned byte sequences; raw range
queries select by lexicographic byte order.  A tree is its list of entries in
strictly ascending key order. -/

/-- Strict lexicographic order on byte sequences (a proper prefix sorts
first), as `Bool`-valued comparison. -/
def byteLexLtB : List Nat → List Nat → Bool
  | [], [] => false
  | [], _ :: _ => true
  | _ :: _, [] => false
  | a :: as, b :: bs => if a < b then true else if a = b then byteLexLtB as bs else false

/-- A raw tree: entries `(key, value)` of engine byte sequences. -/
abbrev RawTree := List (List Nat × List Nat)

/-- The raw tree invariant: entries strictly ascending by key bytes. -/
def TreeSorted (t : RawTree) : Prop :=
  List.Pairwise (fun p q => byteLexLtB p.1 q.1 = true) t

/-- Raw point lookup. -/
def rawGet : RawTree → List Nat → Option (List Nat)
  | [], _ => none
  | (k', v') :: t, k => if k = k' then some v' else rawGet t k

/-- Raw insert keeping ascending key order; returns the displaced previous
value bytes, if any. -/
def rawInsert : RawTree → List Nat → List Nat → Option (List Nat) × RawTree
  | [], k, v => (none, [(k, v)])
  | (k', v') :: t, k, v =>
    if byteLexLtB k k' then (none, (k, v) :: (k', v') :: t)
    else if k = k' then (some v', (k, v) :: t)
    else
      let r := rawInsert t k v
      (r.1, (k', v') :: r.2)

/-- Raw remove; returns the removed value bytes, if any. -/
def rawRemove : RawTree → List Nat → Option (List Nat) × RawTree
  | [], _ => (none, [])
  | (k', v') :: t, k =>
    if k = k' then (some v', t)
    else
      let r := rawRemove t k
      (r.1, (k', v') :: r.2)

/-- Raw range query over the half-open byte interval `[start, stop)`
(Rust `start..end` handed to `sled::Tree::range`). -/
def rawRange (t : RawTree) (start stop : List Nat) : RawTree :=
  t.filter (fun p => !byteLexLtB p.1 start && byteLexLtB p.1 stop)

/-! ### Typed views over engine-owned bytes (`Value`, `Key`, `KeyValue`).

The phantom schema parameter `A` only fixes the decode types, so the model
passes the decode `Ty` explicitly at each lazy decode. -/

/-- `Value<A>`: a lazily decoded view owning raw value bytes. -/
structure Value where
  raw : List Nat
  deriving DecidableEq, Repr

/-- `Value::value`: decode the owned bytes at the schema's value type. -/
def Value.value (valTy : Ty) (v : Value) : Except Error BVal :=
  decode valTy v.raw

/-- `Key<A>`: a lazily decoded view owning raw key bytes. -/
structure Key where
  raw : List Nat
  deriving DecidableEq, Repr

/-- `Key::key`: decode the owned bytes at the schema's key type. -/
def Key.key (keyTy : Ty) (k : Key) : Except Error BVal :=
  decode keyTy k.raw

/-- `KeyValue<A>`: a pair view owning raw key bytes and raw value bytes. -/
structure KeyValue where
  raw_key : List Nat
  raw_value : List Nat
  deriving DecidableEq, Repr

/-- `KeyValue::into_key` exactly as written in `src/lib.rs`: it builds the
`Key` view from `self.raw_value`. -/
def KeyValue.into_key (kv : KeyValue) : Key :=
  Key.mk kv.raw_value

/-- `KeyValue::into_value` as written in `src/lib.rs`: the `Value` view over
`self.raw_value`. -/
def KeyValue.into_value (kv : KeyValue) : Value :=
  Value.mk kv.raw_value

/-- `KeyValue::key`: decode the pair's key bytes. -/
def KeyValue.key (keyTy : Ty) (kv : KeyValue) : Except Error BVal :=
  decode keyTy kv.raw_key

/-- `KeyValue::value`: decode the pair's value bytes. -/
def KeyValue.value (valTy : Ty) (kv : KeyValue) : Except Error BVal :=
  decode valTy kv.raw_value

/-! ### The typed collection (`Tree<A>`) and its operations. -/

/-- `Tree<A>`: a typed handle over one raw partition. -/
structure Tree where
  raw : RawTree
  deriving DecidableEq, Repr

/-- `Tree::insert`: encode both operands, one raw insert, wrap any displaced
prior raw bytes as a lazy view.  State passing makes the updated partition
explicit. -/
def Tree.insert (t : Tree) (k v : BVal) : Except Error (Option Value × Tree) :=
  match encode k with
  | .error e => .error e
  | .ok kb =>
    match encode v with
    | .error e => .error e
    | .ok vb =>
      let r := rawInsert t.raw kb.asRef (ivecOfBuffer vb)
      .ok (r.1.map Value.mk, Tree.mk r.2)

/-- `Tree::get`: encode the key, raw lookup, wrap as a lazy view. -/
def Tree.get (t : Tree) (k : BVal) : Except Error (Option Value) :=
  match encode k with
  | .error e => .error e
  | .ok kb => .ok ((rawGet t.raw kb.asRef).map Value.mk)

/-- `Tree::remove`: encode the key, raw remove, wrap the displaced bytes. -/
def Tree.remove (t : Tree) (k : BVal) : Except Error (Option Value × Tree) :=
  match encode k with
  | .error e => .error e
  | .ok kb =>
    let r := rawRemove t.raw kb.asRef
    .ok (r.1.map Value.mk, Tree.mk r.2)

/-! ### Typed range requests (`Tree::range`).

`range` calls `encode(range.start_bound())` and `encode(range.end_bound())`:
the operand is the `Bound<&K>` value itself, so the codec emits the enum's
variant discriminant (a one-byte varint) before any key payload; the byte
range handed to the engine is the half-open Rust range `start..end` over those
encoded bound byte strings. -/

/-- `std::ops::Bound<&K>` as captured by `RangeBounds::start_bound` /
`end_bound`. -/
inductive RBound where
  | included (k : BVal)
  | excluded (k : BVal)
  | unbounded
  deriving DecidableEq, Repr

/-- Modelled from the spec: bincode's enum encoding of `Bound`, variant
discriminant (varint) first, then the payload for the bounded variants, in
declaration order `Included = 0`, `Excluded = 1`, `Unbounded = 2`.  (The
theorems about `Tree.range` below do not depend on which discriminant each
variant receives, only on the discriminant being emitted at all.) -/
def bincodeEncodeBound : RBound → Except EncodeError (List Nat)
  | .included k =>
    match bincodeEncode k with
    | .error e => .error e
    | .ok bs => .ok (varintEncode 0 ++ bs)
  | .excluded k =>
    match bincodeEncode k with
    | .error e => .error e
    | .ok bs => .ok (varintEncode 1 ++ bs)
  | .unbounded => .ok (varintEncode 2)

/-- The `encode` call in `Tree::range` applied to a bound. -/
def encodeBound (b : RBound) : Except Error Buffer :=
  match bincodeEncodeBound b with
  | .ok bs => .ok ⟨bs⟩
  | .error e => .error (.encodeError e)

/-! ### The typed iterator (`Iter<A>`). -/

/-- `Iter<A>`: a typed double-ended cursor over the remaining raw entries, in
ascending key order. -/
structure Iter where
  raw : RawTree
  deriving DecidableEq, Repr

/-- `Iterator::next for Iter`: step the raw cursor at the front and wrap the
entry as a `KeyValue` view. -/
def Iter.next (it : Iter) : Option KeyValue × Iter :=
  match it.raw with
  | [] => (none, it)
  | (k, v) :: rest => (some (KeyValue.mk k v), Iter.mk rest)

/-- `DoubleEndedIterator::next_back for Iter`: step the raw cursor at the
back and wrap the entry as a `KeyValue` view. -/
def Iter.nextBack (it : Iter) : Option KeyValue × Iter :=
  match it.raw.getLast? with
  | none => (none, it)
  | some (k, v) => (some (KeyValue.mk k v), Iter.mk it.raw.dropLast)

/-- The views an iterator would yield if drained from the front. -/
def kvsOf (it : Iter) : List KeyValue :=
  it.raw.map (fun p => KeyValue.mk p.1 p.2)

/-- Drive one iterator by an arbitrary interleaving of front steps (`true`)
and back steps (`false`); returns the front yields in order, the back yields
in order, and the final cursor. -/
def iterSteps : List Bool → Iter → List KeyValue × List KeyValue × Iter
  | [], it => ([], [], it)
  | true :: ds, it =>
    match Iter.next it with
    | (none, it') => iterSteps ds it'
    | (some kv, it') =>
      let r := iterSteps ds it'
      (kv :: r.1, r.2.1, r.2.2)
  | false :: ds, it =>
    match Iter.nextBack it with
    | (none, it') => iterSteps ds it'
    | (some kv, it') =>
      let r := iterSteps ds it'
      (r.1, kv :: r.2.1, r.2.2)

/-- `Tree::range`: encode the start and end bounds and hand the engine the
half-open byte range `start..end` between those encodings. -/
def Tree.range (t : Tree) (start stop : RBound) : Except Error Iter :=
  match encodeBound start with
  | .error e => .error e
  | .ok s =>
    match encodeBound stop with
    | .error e => .error e
    | .ok e => .ok (Iter.mk (rawRange t.raw s.asRef e.asRef))

/-! ### The typed batch (`Batch<A>`). -/

/-- A staged raw batch operation (`sled::Batch` contents). -/
inductive BatchOp where
  | ins (k v : List Nat)
  | del (k : List Nat)
  deriving DecidableEq, Repr

/-- `Batch<A>`: staged operations, not yet applied. -/
structure Batch where
  raw : List BatchOp
  deriving DecidableEq, Repr

/-- `Batch::insert`: encode both operands and stage one raw insert; storage
is never touched. -/
def Batch.insert (b : Batch) (k v : BVal) : Except Error Batch :=
  match encode k with
  | .error e => .error e
  | .ok kb =>
    match encode v with
    | .error e => .error e
    | .ok vb => .ok (Batch.mk (b.raw ++ [BatchOp.ins (ivecOfBuffer kb) vb.asRef]))

/-- `Batch::remove`: encode the key and stage one raw remove. -/
def Batch.remove (b : Batch) (k : BVal) : Except Error Batch :=
  match encode k with
  | .error e => .error e
  | .ok kb => .ok (Batch.mk (b.raw ++ [BatchOp.del (ivecOfBuffer kb)]))

/-- Modelled from the spec: the engine applies a raw batch atomically as the
sequence of its staged raw operations. -/
def rawApplyBatch (t : RawTree) (ops : List BatchOp) : RawTree :=
  ops.foldl
    (fun t op =>
      match op with
      | .ins k v => (rawInsert t k v).2
      | .del k => (rawRemove t k).2)
    t

/-- `Tree::apply_batch`: delegate the pre-encoded staged operations to the
engine; the only failures are engine failures, which the deterministic engine
model does not produce. -/
def Tree.apply_batch (t : Tree) (b : Batch) : Except Error Tree :=
  .ok (Tree.mk (rawApplyBatch t.raw b.raw))

/-! ### Transactional views and the transaction composer.

`TransactionalTree<A>` methods return
`Result<_, UnabortableTransactionError>`, but their `encode(..).expect(..)`
calls add a third, fatal outcome: a panic that unwinds the attempt.  The
outcome type makes that path explicit. -/

/-- Outcome of a transactional-view operation: success, the normal
unabortable error channel, or the panic raised by `expect` on an encoding
failure. -/
inductive TxOut (α : Type) where
  | ok (a : α)
  | unabortableErr
  | panicked (msg : String)
  deriving DecidableEq, Repr

/-- `TransactionalTree::insert`: `encode(key).expect("key encoding failed")`,
`encode(val).expect("value encoding failed")`, then the raw uncommitted
insert on this attempt's scratch state. -/
def TransactionalTree.insert (s : RawTree) (k v : BVal) : TxOut (Option Value × RawTree) :=
  match encode k with
  | .error _ => .panicked "key encoding failed"
  | .ok kb =>
    match encode v with
    | .error _ => .panicked "value encoding failed"
    | .ok vb =>
      let r := rawInsert s (ivecOfBuffer kb) (ivecOfBuffer vb)
      .ok (r.1.map Value.mk, r.2)

/-- `TransactionalTree::remove`: `encode(key).expect("key encoding failed")`,
then the raw uncommitted remove. -/
def TransactionalTree.remove (s : RawTree) (k : BVal) : TxOut (Option Value × RawTree) :=
  match encode k with
  | .error _ => .panicked "key encoding failed"
  | .ok kb =>
    let r := rawRemove s (ivecOfBuffer kb)
    .ok (r.1.map Value.mk, r.2)

/-- `TransactionalTree::get`: `encode(key).expect("key encoding failed")`,
then the raw uncommitted lookup (read-your-writes on the scratch state). -/
def TransactionalTree.get (s : RawTree) (k : BVal) : TxOut (Option Value) :=
  match encode k with
  | .error _ => .panicked "key encoding failed"
  | .ok kb => .ok ((rawGet s (ivecOfBuffer kb)).map Value.mk)

/-- `sled::transaction::ConflictableTransactionError<E>` as seen by the
callback's return value: the domain-abort channel or an engine failure.
(Conflicts are handled inside the engine by re-invocation and never escape.) -/
inductive CTxErr (E : Type) where
  | abort (e : E)
  | storage
  deriving DecidableEq, Repr

/-- `sled::transaction::TransactionError<E>`, the error half of the result
returned to the caller of `transaction`. -/
inductive TxErr (E : Type) where
  | abort (e : E)
  | storage
  deriving DecidableEq, Repr

/-- What one invocation of the callback produces: a
`ConflictableTransactionResult<R, E>`, or a panic escaping from an `expect`
inside a transactional-view operation. -/
inductive CbOut (R E : Type) where
  | ok (r : R)
  | err (e : CTxErr E)
  | panicked (msg : String)
  deriving DecidableEq, Repr

/-- What the whole transaction produces for its caller: a
`TransactionResult<R, E>`, or the propagated panic. -/
inductive TxRun (R E : Type) where
  | ok (r : R)
  | err (e : TxErr E)
  | panicked (msg : String)
  deriving DecidableEq, Repr

/-- The scratch state of one attempt over three joined collections. -/
structure Tx3State where
  s1 : RawTree
  s2 : RawTree
  s3 : RawTree
  deriving DecidableEq, Repr

/-- Modelled from the spec: the engine's raw multi-handle transaction
primitive, at arity three.  The callback runs against a scratch state seeded
from the current trees; only a successful return commits the scratch state;
a domain abort or engine failure discards every scratch mutation and is
propagated; a panic unwinds the attempt with nothing committed.  A conflict
re-invokes the same pure callback, so retry does not alter this input/output
relation. -/
def transaction3 {R E : Type} (f : Tx3State → CbOut R E × Tx3State) (s : Tx3State) :
    TxRun R E × Tx3State :=
  match f s with
  | (.ok r, s') => (.ok r, s')
  | (.err (.abort e), _) => (.err (.abort e), s)
  | (.err .storage, _) => (.err .storage, s)
  | (.panicked m, _) => (.panicked m, s)

/-- The `impl_transactable!` instance for `(&Tree<A>, &Tree<B>, &Tree<C>)`:
wrap each raw handle as a transactional view (here: a component of the
scratch state) and delegate to the engine primitive. -/
def tupleTransaction3 {R E : Type} (t1 t2 t3 : Tree) (f : Tx3State → CbOut R E × Tx3State) :
    TxRun R E × (Tree × Tree × Tree) :=
  let r := transaction3 f (Tx3State.mk t1.raw t2.raw t3.raw)
  (r.1, (Tree.mk r.2.s1, Tree.mk r.2.s2, Tree.mk r.2.s3))

/-- A canonical callback doing one typed insert through the first view and
lifting its outcome with `?` (an `UnabortableTransactionError` converts into
the engine-failure side of `ConflictableTransactionError`; a panic just
unwinds). -/
def insertCb1 {E : Type} (k v : BVal) (s : Tx3State) : CbOut Unit E × Tx3State :=
  match TransactionalTree.insert s.s1 k v with
  | .ok (_, s1') => (.ok (), Tx3State.mk s1' s.s2 s.s3)
  | .unabortableErr => (.err .storage, s)
  | .panicked m => (.panicked m, s)

/-! ## Lemmas about the codec model -/

theorem natToLE_length (w n : Nat) : (natToLE w n).length = w := by
  induction w generalizing n with
  | zero => rfl
  | succ k ih => simp [natToLE, ih]

theorem natFromLE_natToLE (w n : Nat) (h : n < 256 ^ w) :
    natFromLE (natToLE w n) = n := by
  induction w generalizing n with
  | zero =>
    simp only [pow_zero, Nat.lt_one_iff] at h
    simp [natToLE, natFromLE, h]
  | succ k ih =>
    have hdiv : n / 256 < 256 ^ k := by
      rw [Nat.div_lt_iff_lt_mul (by norm_num)]
      calc n < 256 ^ (k + 1) := h
        _ = 256 ^ k * 256 := by ring
    simp [natToLE, natFromLE, ih _ hdiv]
    omega

theorem takeBytes_append (xs rest : List Nat) :
    takeBytes xs.length (xs ++ rest) = some (xs, rest) := by
  induction xs with
  | nil => simp [takeBytes]
  | cons b bs ih => simp [takeBytes, ih]

theorem varintDecode_varintEncode (n : Nat) (rest : List Nat) (h : n < 2 ^ 64) :
    varintDecode (varintEncode n ++ rest) = some (n, rest) := by
  have h' : n < 18446744073709551616 := by norm_num at h; exact h
  unfold varintEncode
  by_cases hb1 : n < 251
  · simp [hb1, varintDecode]
  · by_cases hb2 : n < 65536
    · have ht := takeBytes_append (natToLE 2 n) rest
      rw [natToLE_length] at ht
      have hv := natFromLE_natToLE 2 n (by norm_num; omega)
      simp [hb1, hb2, varintDecode, ht, hv]
    · by_cases hb3 : n < 4294967296
      · have ht := takeBytes_append (natToLE 4 n) rest
        rw [natToLE_length] at ht
        have hv := natFromLE_natToLE 4 n (by norm_num; omega)
        simp [hb1, hb2, hb3, varintDecode, ht, hv]
      · have ht := takeBytes_append (natToLE 8 n) rest
        rw [natToLE_length] at ht
        have hv := natFromLE_natToLE 8 n (by norm_num; omega)
        simp [hb1, hb2, hb3, varintDecode, ht, hv]

theorem bincodeDecodeAt_encode (v : BVal) (bs rest : List Nat)
    (hwf : wf v = true) (he : bincodeEncode v = .ok bs) :
    bincodeDecodeAt (tyOf v) (bs ++ rest) = .ok (v, rest) := by
  induction v generalizing bs rest with
  | vu32 n =>
    simp [wf] at hwf
    simp [bincodeEncode] at he
    subst he
    simp [tyOf, bincodeDecodeAt,
      varintDecode_varintEncode n rest (lt_trans hwf (by norm_num)), hwf]
  | vu64 n =>
    simp [wf] at hwf
    simp [bincodeEncode] at he
    subst he
    simp [tyOf, bincodeDecodeAt, varintDecode_varintEncode n rest hwf, hwf]
  | vstr s =>
    simp [wf] at hwf
    simp [bincodeEncode] at he
    subst he
    simp only [tyOf, bincodeDecodeAt, List.append_assoc,
      varintDecode_varintEncode s.length (s ++ rest) hwf.1]
    have hle : s.length ≤ (s ++ rest).length := by simp
    simp [hle, List.take_left, List.drop_left]
  | vpair a b iha ihb =>
    simp [wf] at hwf
    cases ha : bincodeEncode a with
    | error e => simp [bincodeEncode, ha] at he
    | ok ba =>
      cases hb : bincodeEncode b with
      | error e => simp [bincodeEncode, ha, hb] at he
      | ok bb =>
        simp [bincodeEncode, ha, hb] at he
        subst he
        have h1 := iha ba (bb ++ rest) hwf.1 ha
        have h2 := ihb bb rest hwf.2 hb
        simp [tyOf, bincodeDecodeAt, List.append_assoc, h1, h2]
  | vunsupported => simp [bincodeEncode] at he

/-- Claim C1: for every representable value of a Key or Value type, decoding
the bytes produced by `encode` (as handed to the engine through the
small-buffer conversion) succeeds and yields the original value:
`decode(encode(v)) == v`. -/
theorem encode_decode_roundtrip (v : BVal) (b : Buffer)
    (hwf : wf v = true) (he : encode v = .ok b) :
    decode (tyOf v) (ivecOfBuffer b) = .ok v := by
  cases hb : bincodeEncode v with
  | error e => simp [encode, hb] at he
  | ok bs =>
    simp [encode, hb] at he
    subst he
    have hd := bincodeDecodeAt_encode v bs [] hwf hb
    rw [List.append_nil] at hd
    simp [decode, ivecOfBuffer, ivecFromVec, ivecFromSlice, hd]

/-- Witness for C1 at the test suite's shape `("John", 32) : (&str, u32)`. -/
theorem encode_decode_roundtrip_witness :
    wf (BVal.vpair (.vstr [74, 111, 104, 110]) (.vu32 32)) = true ∧
    encode (BVal.vpair (.vstr [74, 111, 104, 110]) (.vu32 32)) =
      .ok ⟨[4, 74, 111, 104, 110, 32]⟩ ∧
    decode (tyOf (BVal.vpair (.vstr [74, 111, 104, 110]) (.vu32 32)))
        (ivecOfBuffer ⟨[4, 74, 111, 104, 110, 32]⟩) =
      .ok (BVal.vpair (.vstr [74, 111, 104, 110]) (.vu32 32)) :=
  ⟨by decide, rfl,
    encode_decode_roundtrip (BVal.vpair (.vstr [74, 111, 104, 110]) (.vu32 32))
      ⟨[4, 74, 111, 104, 110, 32]⟩ (by decide) rfl⟩

/-! ## Lemmas about the engine model -/

theorem byteLexLtB_irrefl (l : List Nat) : byteLexLtB l l = false := by
  induction l with
  | nil => rfl
  | cons a as ih => simp [byteLexLtB, ih]

theorem byteLexLtB_ne {a b : List Nat} (h : byteLexLtB a b = true) : a ≠ b := by
  intro hab
  subst hab
  rw [byteLexLtB_irrefl] at h
  exact Bool.noConfusion h

theorem byteLexLtB_cons_iff {x y : Nat} {xs ys : List Nat} :
    byteLexLtB (x :: xs) (y :: ys) = true ↔ x < y ∨ (x = y ∧ byteLexLtB xs ys = true) := by
  simp [byteLexLtB]

theorem byteLexLtB_trans {a : List Nat} : ∀ {b c : List Nat}, byteLexLtB a b = true →
    byteLexLtB b c = true → byteLexLtB a c = true := by
  induction a with
  | nil =>
    intro b c hab hbc
    cases b with
    | nil => simp [byteLexLtB] at hab
    | cons y ys =>
      cases c with
      | nil => simp [byteLexLtB] at hbc
      | cons z zs => rfl
  | cons x xs ih =>
    intro b c hab hbc
    cases b with
    | nil => simp [byteLexLtB] at hab
    | cons y ys =>
      cases c with
      | nil => simp [byteLexLtB] at hbc
      | cons z zs =>
        rw [byteLexLtB_cons_iff] at hab hbc ⊢
        rcases hab with hxy | ⟨hxy, hxs⟩
        · rcases hbc with hyz | ⟨hyz, _⟩
          · exact Or.inl (lt_trans hxy hyz)
          · exact Or.inl (hyz ▸ hxy)
        · rcases hbc with hyz | ⟨hyz, hys⟩
          · exact Or.inl (hxy ▸ hyz)
          · exact Or.inr ⟨hxy.trans hyz, ih hxs hys⟩

theorem rawGet_of_forall_lt {t : RawTree} {k : List Nat}
    (h : ∀ p ∈ t, byteLexLtB k p.1 = true) : rawGet t k = none := by
  induction t with
  | nil => rfl
  | cons p t ih =>
    obtain ⟨k', v'⟩ := p
    have hne : k ≠ k' := byteLexLtB_ne (h (k', v') (by simp))
    simp only [rawGet, if_neg hne]
    exact ih (fun q hq => h q (by simp [hq]))

theorem rawGet_rawInsert_self (t : RawTree) (k v : List Nat) :
    rawGet (rawInsert t k v).2 k = some v := by
  induction t with
  | nil => simp [rawInsert, rawGet]
  | cons p t ih =>
    obtain ⟨k', v'⟩ := p
    by_cases h1 : byteLexLtB k k' = true
    · simp [rawInsert, h1, rawGet]
    · by_cases h2 : k = k'
      · simp [rawInsert, h1, h2, rawGet, byteLexLtB_irrefl]
      · simp [rawInsert, h1, h2, rawGet, ih]

theorem rawInsert_fst (t : RawTree) (k v : List Nat) (hs : TreeSorted t) :
    (rawInsert t k v).1 = rawGet t k := by
  induction t with
  | nil => rfl
  | cons p t ih =>
    obtain ⟨k', v'⟩ := p
    rw [TreeSorted, List.pairwise_cons] at hs
    by_cases h1 : byteLexLtB k k' = true
    · have hne : k ≠ k' := byteLexLtB_ne h1
      have habs : rawGet t k = none :=
        rawGet_of_forall_lt (fun q hq => byteLexLtB_trans h1 (hs.1 q hq))
      simp [rawInsert, h1, rawGet, hne, habs]
    · by_cases h2 : k = k'
      · simp [rawInsert, h1, h2, rawGet, byteLexLtB_irrefl]
      · simp [rawInsert, h1, h2, rawGet, ih hs.2]

theorem rawRemove_absent (t : RawTree) (k : List Nat) (h : rawGet t k = none) :
    rawRemove t k = (none, t) := by
  induction t with
  | nil => rfl
  | cons p t ih =>
    obtain ⟨k', v'⟩ := p
    by_cases h2 : k = k'
    · simp [rawGet, h2] at h
    · simp only [rawGet, if_neg h2] at h
      simp [rawRemove, h2, ih h]

/-- Claim C5: for every key and value that encode successfully, a successful
`insert(k, v)` returns the view of the previously stored bytes for `k` (none
when absent), and `get(k)` on the resulting tree returns a value view that
decodes back to `v`. -/
theorem insert_get_consistency (t : Tree) (k v : BVal) (kb vb : List Nat)
    (hs : TreeSorted t.raw) (hwfv : wf v = true)
    (hk : bincodeEncode k = .ok kb) (hv : bincodeEncode v = .ok vb) :
    Tree.insert t k v =
      .ok ((rawGet t.raw kb).map Value.mk, Tree.mk (rawInsert t.raw kb vb).2) ∧
    Tree.get (Tree.mk (rawInsert t.raw kb vb).2) k = .ok (some (Value.mk vb)) ∧
    Value.value (tyOf v) (Value.mk vb) = .ok v := by
  have hek : encode k = .ok ⟨kb⟩ := by simp [encode, hk]
  have hev : encode v = .ok ⟨vb⟩ := by simp [encode, hv]
  have hiv : ivecOfBuffer ⟨vb⟩ = vb := by simp [ivecOfBuffer, ivecFromVec, ivecFromSlice]
  refine ⟨?_, ?_, ?_⟩
  · simp [Tree.insert, hek, hev, Buffer.asRef, hiv, rawInsert_fst t.raw kb vb hs]
  · simp [Tree.get, hek, Buffer.asRef, hiv, rawGet_rawInsert_self]
  · have hd := bincodeDecodeAt_encode v vb [] hwfv hv
    rw [List.append_nil] at hd
    simp [Value.value, decode, hd]

/-- Witness for C5: inserting value `7 : u64` under key `3 : u32` into an
empty tree. -/
theorem insert_get_consistency_witness :
    Tree.insert (Tree.mk []) (.vu32 3) (.vu64 7) =
      .ok ((rawGet [] [3]).map Value.mk, Tree.mk (rawInsert [] [3] [7]).2) ∧
    Tree.get (Tree.mk (rawInsert [] [3] [7]).2) (.vu32 3) = .ok (some (Value.mk [7])) ∧
    Value.value (tyOf (.vu64 7)) (Value.mk [7]) = .ok (.vu64 7) :=
  insert_get_consistency (Tree.mk []) (.vu32 3) (.vu64 7) [3] [7]
    (List.Pairwise.nil) (by decide) rfl rfl

/-- Claim C8: removing a key that encodes successfully but is absent from the
collection succeeds with no previous value (and leaves the tree unchanged);
it is never an error. -/
theorem remove_absent_none (t : Tree) (k : BVal) (kb : List Nat)
    (hk : bincodeEncode k = .ok kb) (habs : rawGet t.raw kb = none) :
    Tree.remove t k = .ok (none, t) := by
  have hek : encode k = .ok ⟨kb⟩ := by simp [encode, hk]
  simp [Tree.remove, hek, Buffer.asRef, rawRemove_absent t.raw kb habs]

/-- Witness for C8: removing key `9 : u32` from a tree holding only key
`3 : u32`. -/
theorem remove_absent_none_witness :
    Tree.remove (Tree.mk [([3], [7])]) (.vu32 9) = .ok (none, Tree.mk [([3], [7])]) :=
  remove_absent_none (Tree.mk [([3], [7])]) (.vu32 9) [9] rfl rfl

/-- Claim C9: the byte sequence handed to the engine after encoding is the
encoded byte sequence whether or not it exceeded the 16-byte inline capacity
and spilled to the heap: both branches of `From<Buffer> for IVec` yield
exactly the encoded bytes, and those bytes decode back to the value, so the
caller cannot distinguish the two allocation strategies. -/
theorem buffer_strategy_invariance (v : BVal) (bs : List Nat)
    (hwf : wf v = true) (he : bincodeEncode v = .ok bs) :
    encode v = .ok ⟨bs⟩ ∧
    (Buffer.spilled ⟨bs⟩ = true → ivecOfBuffer ⟨bs⟩ = ivecFromVec bs) ∧
    (Buffer.spilled ⟨bs⟩ = false → ivecOfBuffer ⟨bs⟩ = ivecFromSlice bs) ∧
    ivecOfBuffer ⟨bs⟩ = bs ∧
    decode (tyOf v) (ivecOfBuffer ⟨bs⟩) = .ok v := by
  refine ⟨by simp [encode, he], ?_, ?_, ?_, ?_⟩
  · intro hsp
    simp [ivecOfBuffer, hsp]
  · intro hsp
    simp [ivecOfBuffer, hsp]
  · simp [ivecOfBuffer, ivecFromVec, ivecFromSlice]
  · have hd := bincodeDecodeAt_encode v bs [] hwf he
    rw [List.append_nil] at hd
    simp [decode, ivecOfBuffer, ivecFromVec, ivecFromSlice, hd]

/-- Witness for C9: a 1-byte encoding (`5 : u32`, non-spilled) and an 18-byte
encoding (a 17-byte string, spilled past the 16-byte inline capacity) both
reach the engine as exactly the encoded bytes and round-trip. -/
theorem buffer_strategy_invariance_witness :
    Buffer.spilled ⟨[5]⟩ = false ∧
    Buffer.spilled ⟨[17, 0, 1, 2, 3, 4, 5, 6, 7, 8, 9, 10, 11, 12, 13, 14, 15, 16]⟩ = true ∧
    (encode (BVal.vu32 5) = .ok ⟨[5]⟩ ∧
      (Buffer.spilled ⟨[5]⟩ = true → ivecOfBuffer ⟨[5]⟩ = ivecFromVec [5]) ∧
      (Buffer.spilled ⟨[5]⟩ = false → ivecOfBuffer ⟨[5]⟩ = ivecFromSlice [5]) ∧
      ivecOfBuffer ⟨[5]⟩ = [5] ∧
      decode (tyOf (BVal.vu32 5)) (ivecOfBuffer ⟨[5]⟩) = .ok (BVal.vu32 5)) ∧
    (encode (BVal.vstr [0, 1, 2, 3, 4, 5, 6, 7, 8, 9, 10, 11, 12, 13, 14, 15, 16]) =
        .ok ⟨[17, 0, 1, 2, 3, 4, 5, 6, 7, 8, 9, 10, 11, 12, 13, 14, 15, 16]⟩ ∧
      (Buffer.spilled ⟨[17, 0, 1, 2, 3, 4, 5, 6, 7, 8, 9, 10, 11, 12, 13, 14, 15, 16]⟩ = true →
        ivecOfBuffer ⟨[17, 0, 1, 2, 3, 4, 5, 6, 7, 8, 9, 10, 11, 12, 13, 14, 15, 16]⟩ =
          ivecFromVec [17, 0, 1, 2, 3, 4, 5, 6, 7, 8, 9, 10, 11, 12, 13, 14, 15, 16]) ∧
      (Buffer.spilled ⟨[17, 0, 1, 2, 3, 4, 5, 6, 7, 8, 9, 10, 11, 12, 13, 14, 15, 16]⟩ = false →
        ivecOfBuffer ⟨[17, 0, 1, 2, 3, 4, 5, 6, 7, 8, 9, 10, 11, 12, 13, 14, 15, 16]⟩ =
          ivecFromSlice [17, 0, 1, 2, 3, 4, 5, 6, 7, 8, 9, 10, 11, 12, 13, 14, 15, 16]) ∧
      ivecOfBuffer ⟨[17, 0, 1, 2, 3, 4, 5, 6, 7, 8, 9, 10, 11, 12, 13, 14, 15, 16]⟩ =
        [17, 0, 1, 2, 3, 4, 5, 6, 7, 8, 9, 10, 11, 12, 13, 14, 15, 16] ∧
      decode (tyOf (BVal.vstr [0, 1, 2, 3, 4, 5, 6, 7, 8, 9, 10, 11, 12, 13, 14, 15, 16]))
          (ivecOfBuffer ⟨[17, 0, 1, 2, 3, 4, 5, 6, 7, 8, 9, 10, 11, 12, 13, 14, 15, 16]⟩) =
        .ok (BVal.vstr [0, 1, 2, 3, 4, 5, 6, 7, 8, 9, 10, 11, 12, 13, 14, 15, 16])) :=
  ⟨rfl, rfl,
    buffer_strategy_invariance (BVal.vu32 5) [5] (by decide) rfl,
    buffer_strategy_invariance (BVal.vstr [0, 1, 2, 3, 4, 5, 6, 7, 8, 9, 10, 11, 12, 13, 14, 15, 16])
      [17, 0, 1, 2, 3, 4, 5, 6, 7, 8, 9, 10, 11, 12, 13, 14, 15, 16] (by decide) rfl⟩

/-- Claim C7: `Batch::insert` and `Batch::remove` only encode their arguments
and stage one raw operation onto the batch (no collection handle is even in
scope); an encoding failure is returned by the staging call itself; and
applying an already-built batch through `Tree::apply_batch` cannot fail for
encoding reasons (in the deterministic engine model it cannot fail at all). -/
theorem batch_stage_apply (b : Batch) (k v : BVal) (t : Tree) :
    (∀ e, bincodeEncode k = .error e →
      Batch.insert b k v = .error (.encodeError e) ∧
      Batch.remove b k = .error (.encodeError e)) ∧
    (∀ kb e, bincodeEncode k = .ok kb → bincodeEncode v = .error e →
      Batch.insert b k v = .error (.encodeError e)) ∧
    (∀ kb vb, bincodeEncode k = .ok kb → bincodeEncode v = .ok vb →
      Batch.insert b k v = .ok ⟨b.raw ++ [.ins kb vb]⟩) ∧
    (∀ kb, bincodeEncode k = .ok kb →
      Batch.remove b k = .ok ⟨b.raw ++ [.del kb]⟩) ∧
    Tree.apply_batch t b = .ok ⟨rawApplyBatch t.raw b.raw⟩ := by
  refine ⟨?_, ?_, ?_, ?_, rfl⟩
  · intro e hk
    constructor <;> simp [Batch.insert, Batch.remove, encode, hk]
  · intro kb e hk hv
    simp [Batch.insert, encode, hk, hv]
  · intro kb vb hk hv
    simp [Batch.insert, encode, hk, hv, ivecOfBuffer, ivecFromVec, ivecFromSlice, Buffer.asRef]
  · intro kb hk
    simp [Batch.remove, encode, hk, ivecOfBuffer, ivecFromVec, ivecFromSlice]

/-- Witness for C7: staging the unsupported-shape key reports the encoding
failure; staging `(1 : u32, 2 : u32)` appends exactly one raw operation; the
built batch applies without any error. -/
theorem batch_stage_apply_witness :
    Batch.insert ⟨[]⟩ .vunsupported (.vu32 2) = .error (.encodeError .unsupported) ∧
    Batch.remove ⟨[]⟩ .vunsupported = .error (.encodeError .unsupported) ∧
    Batch.insert ⟨[]⟩ (.vu32 1) (.vu32 2) = .ok ⟨[.ins [1] [2]]⟩ ∧
    Batch.remove ⟨[]⟩ (.vu32 1) = .ok ⟨[.del [1]]⟩ ∧
    Tree.apply_batch (Tree.mk []) ⟨[.ins [1] [2]]⟩ =
      .ok ⟨rawApplyBatch [] [.ins [1] [2]]⟩ :=
  ⟨((batch_stage_apply ⟨[]⟩ .vunsupported (.vu32 2) (Tree.mk [])).1 .unsupported rfl).1,
    ((batch_stage_apply ⟨[]⟩ .vunsupported (.vu32 2) (Tree.mk [])).1 .unsupported rfl).2,
    by
      have h := (batch_stage_apply ⟨[]⟩ (.vu32 1) (.vu32 2) (Tree.mk [])).2.2.1 [1] [2] rfl rfl
      simpa using h,
    by
      have h := (batch_stage_apply ⟨[]⟩ (.vu32 1) (.vu32 2) (Tree.mk [])).2.2.2.1 [1] rfl
      simpa using h,
    (batch_stage_apply ⟨[.ins [1] [2]]⟩ (.vu32 1) (.vu32 2) (Tree.mk [])).2.2.2.2⟩

/-- Claim C10, evaluated at a failing input: `KeyValue::into_key` builds the
`Key` view from `self.raw_value`, so for the pair `(1 : u32) ↦ (2 : u32)`
(raw key bytes `[1]`, raw value bytes `[2]`) the resulting view decodes to
`2` while `KeyValue::key` decodes to `1`; `into_value` agrees with
`KeyValue::value` as claimed. -/
theorem into_key_wraps_value_bytes :
    KeyValue.into_key (KeyValue.mk [1] [2]) = Key.mk [2] ∧
    Key.key .tu32 (KeyValue.into_key (KeyValue.mk [1] [2])) = .ok (.vu32 2) ∧
    KeyValue.key .tu32 (KeyValue.mk [1] [2]) = .ok (.vu32 1) ∧
    Key.key .tu32 (KeyValue.into_key (KeyValue.mk [1] [2])) ≠
      KeyValue.key .tu32 (KeyValue.mk [1] [2]) ∧
    Value.value .tu32 (KeyValue.into_value (KeyValue.mk [1] [2])) =
      KeyValue.value .tu32 (KeyValue.mk [1] [2]) := by
  refine ⟨rfl, rfl, rfl, ?_, rfl⟩
  intro h
  rw [show Key.key .tu32 (KeyValue.into_key (KeyValue.mk [1] [2])) = .ok (.vu32 2) from rfl,
    show KeyValue.key .tu32 (KeyValue.mk [1] [2]) = .ok (.vu32 1) from rfl] at h
  simp at h

/-- Claim C2, evaluated at a failing input: `Tree::range` bincode-encodes the
`Bound` values themselves (variant discriminant included) and hands the
engine the byte range `start..end` over those encodings.  On a tree holding
key `5 : u32` (stored as `[5]`), the fully unbounded request becomes the
empty byte range from `[2]` to `[2]` rather than the engine's native
unbounded sides, and the inclusive request `5..=6` becomes the byte range
from `[0, 5]` to `[0, 6]`, which contains no stored key encoding: both
return an empty iterator although the stored key lies in the requested typed
range. -/
theorem range_misses_entries :
    Tree.range (Tree.mk [([5], [1])]) .unbounded .unbounded = .ok (Iter.mk []) ∧
    Tree.range (Tree.mk [([5], [1])]) (.included (.vu32 5)) (.included (.vu32 6)) =
      .ok (Iter.mk []) ∧
    encode (BVal.vu32 5) = .ok ⟨[5]⟩ ∧
    encodeBound .unbounded = .ok ⟨[2]⟩ ∧
    encodeBound (.included (.vu32 5)) = .ok ⟨[0, 5]⟩ :=
  ⟨rfl, rfl, rfl, rfl, rfl⟩

/-- Claim C3: an encoding failure inside a transactional `insert`, `remove`
or `get` — whether the failing operand is the key or (for `insert`) the
value — is the corresponding `expect` panic: fatal to that attempt,
committing nothing, and distinct from the domain-abort error channel;
whereas the same malformed input given to the non-transactional operations
is returned as an ordinary `EncodeError` result, and transactional
operations with successful encodings never reach the panic path. -/
theorem tx_encode_failure_fatal (s : RawTree) (t : Tree) (st : Tx3State)
    (k v : BVal) (e : EncodeError) (hk : bincodeEncode k = .error e) :
    TransactionalTree.insert s k v = .panicked "key encoding failed" ∧
    TransactionalTree.remove s k = .panicked "key encoding failed" ∧
    TransactionalTree.get s k = .panicked "key encoding failed" ∧
    (∀ (k' v' : BVal) (kb : List Nat) (e' : EncodeError),
      bincodeEncode k' = .ok kb → bincodeEncode v' = .error e' →
      TransactionalTree.insert s k' v' = .panicked "value encoding failed") ∧
    transaction3 (insertCb1 (E := Unit) k v) st = (.panicked "key encoding failed", st) ∧
    (∀ er : Unit, (TxRun.panicked "key encoding failed" : TxRun Unit Unit) ≠ .err (.abort er)) ∧
    Tree.insert t k v = .error (.encodeError e) ∧
    Tree.get t k = .error (.encodeError e) ∧
    Tree.remove t k = .error (.encodeError e) ∧
    (∀ (k' v' : BVal) (kb vb : List Nat),
      bincodeEncode k' = .ok kb → bincodeEncode v' = .ok vb →
      TransactionalTree.insert s k' v' =
        .ok ((rawInsert s kb vb).1.map Value.mk, (rawInsert s kb vb).2)) := by
  refine ⟨?_, ?_, ?_, ?_, ?_, ?_, ?_, ?_, ?_, ?_⟩
  · simp [TransactionalTree.insert, encode, hk]
  · simp [TransactionalTree.remove, encode, hk]
  · simp [TransactionalTree.get, encode, hk]
  · intro k' v' kb e' hk' hv'
    simp [TransactionalTree.insert, encode, hk', hv']
  · simp [transaction3, insertCb1, TransactionalTree.insert, encode, hk]
  · intro er h
    exact TxRun.noConfusion h
  · simp [Tree.insert, encode, hk]
  · simp [Tree.get, encode, hk]
  · simp [Tree.remove, encode, hk]
  · intro k' v' kb vb hk' hv'
    simp [TransactionalTree.insert, encode, hk', hv', ivecOfBuffer, ivecFromVec, ivecFromSlice]

/-- Witness for C3 at the unsupported-shape value on concrete states: the
failing key and, separately, the failing value under the successfully
encoding key `1 : u32`. -/
theorem tx_encode_failure_fatal_witness :
    (TransactionalTree.insert [] .vunsupported (.vu32 2) = .panicked "key encoding failed" ∧
      TransactionalTree.remove [] .vunsupported = .panicked "key encoding failed" ∧
      TransactionalTree.get [] .vunsupported = .panicked "key encoding failed" ∧
      (∀ (k' v' : BVal) (kb : List Nat) (e' : EncodeError),
        bincodeEncode k' = .ok kb → bincodeEncode v' = .error e' →
        TransactionalTree.insert [] k' v' = .panicked "value encoding failed") ∧
      transaction3 (insertCb1 (E := Unit) .vunsupported (.vu32 2)) (Tx3State.mk [] [] []) =
        (.panicked "key encoding failed", Tx3State.mk [] [] []) ∧
      (∀ er : Unit, (TxRun.panicked "key encoding failed" : TxRun Unit Unit) ≠ .err (.abort er)) ∧
      Tree.insert (Tree.mk []) .vunsupported (.vu32 2) = .error (.encodeError .unsupported) ∧
      Tree.get (Tree.mk []) .vunsupported = .error (.encodeError .unsupported) ∧
      Tree.remove (Tree.mk []) .vunsupported = .error (.encodeError .unsupported) ∧
      (∀ (k' v' : BVal) (kb vb : List Nat),
        bincodeEncode k' = .ok kb → bincodeEncode v' = .ok vb →
        TransactionalTree.insert [] k' v' =
          .ok ((rawInsert [] kb vb).1.map Value.mk, (rawInsert [] kb vb).2))) ∧
    TransactionalTree.insert [] (.vu32 1) .vunsupported = .panicked "value encoding failed" :=
  ⟨tx_encode_failure_fatal [] (Tree.mk []) (Tx3State.mk [] [] [])
      .vunsupported (.vu32 2) .unsupported rfl,
    (tx_encode_failure_fatal [] (Tree.mk []) (Tx3State.mk [] [] [])
        .vunsupported (.vu32 2) .unsupported rfl).2.2.2.1
      (.vu32 1) .vunsupported [1] .unsupported rfl rfl⟩

/-- Claim C4: when the callback of a three-collection transaction returns a
domain abort, no mutation performed through the transactional views during
the attempt is committed — all three joined trees come back unchanged — and
the domain error propagates unchanged to the caller. -/
theorem transaction_abort_no_commit {R E : Type} (t1 t2 t3 : Tree)
    (f : Tx3State → CbOut R E × Tx3State) (e : E) (s' : Tx3State)
    (h : f (Tx3State.mk t1.raw t2.raw t3.raw) = (.err (.abort e), s')) :
    tupleTransaction3 t1 t2 t3 f = (.err (.abort e), (t1, t2, t3)) := by
  simp [tupleTransaction3, transaction3, h]

/-- The spec's atomicity scenario as a concrete callback: insert the same
record through all three transactional views, then abort with domain error
`42`. -/
def abortAfterInserts (k v : BVal) (s : Tx3State) : CbOut Unit Nat × Tx3State :=
  match TransactionalTree.insert s.s1 k v, TransactionalTree.insert s.s2 k v,
      TransactionalTree.insert s.s3 k v with
  | .ok (_, s1'), .ok (_, s2'), .ok (_, s3') => (.err (.abort 42), Tx3State.mk s1' s2' s3')
  | _, _, _ => (.panicked "key encoding failed", s)

/-- Witness for C4: the scratch state after the callback holds the record in
all three views, yet the transaction returns the abort unchanged and all
three trees stay empty. -/
theorem transaction_abort_no_commit_witness :
    abortAfterInserts (.vu32 1) (.vu32 2) (Tx3State.mk [] [] []) =
      (.err (.abort 42), Tx3State.mk [([1], [2])] [([1], [2])] [([1], [2])]) ∧
    tupleTransaction3 (Tree.mk []) (Tree.mk []) (Tree.mk [])
        (abortAfterInserts (.vu32 1) (.vu32 2)) =
      (.err (.abort 42), (Tree.mk [], Tree.mk [], Tree.mk [])) :=
  ⟨rfl,
    transaction_abort_no_commit (Tree.mk []) (Tree.mk []) (Tree.mk [])
      (abortAfterInserts (.vu32 1) (.vu32 2)) 42
      (Tx3State.mk [([1], [2])] [([1], [2])] [([1], [2])]) rfl⟩

/-! ## The double-ended iterator -/

theorem iterSteps_partition (ds : List Bool) (it : Iter) :
    (iterSteps ds it).1 ++ kvsOf (iterSteps ds it).2.2 ++ ((iterSteps ds it).2.1).reverse
      = kvsOf it := by
  induction ds generalizing it with
  | nil => simp [iterSteps]
  | cons d ds ih =>
    cases d
    · cases hr : it.raw.getLast? with
      | none =>
        rw [List.getLast?_eq_none_iff] at hr
        have hit : Iter.nextBack it = (none, it) := by simp [Iter.nextBack, hr]
        simp only [iterSteps, hit]
        exact ih it
      | some p =>
        obtain ⟨pk, pv⟩ := p
        have hsplit : it.raw.dropLast ++ [(pk, pv)] = it.raw :=
          List.dropLast_append_getLast? (pk, pv) (Option.mem_def.mpr hr)
        have hit : Iter.nextBack it = (some (KeyValue.mk pk pv), Iter.mk it.raw.dropLast) := by
          simp [Iter.nextBack, hr]
        simp only [iterSteps, hit, List.reverse_cons, ← List.append_assoc]
        rw [ih (Iter.mk it.raw.dropLast)]
        conv_rhs => rw [kvsOf, ← hsplit, List.map_append]
        rfl
    · cases hraw : it.raw with
      | nil =>
        have hit : Iter.next it = (none, it) := by simp [Iter.next, hraw]
        simp only [iterSteps, hit]
        exact ih it
      | cons p rest =>
        obtain ⟨pk, pv⟩ := p
        have hit : Iter.next it = (some (KeyValue.mk pk pv), Iter.mk rest) := by
          simp [Iter.next, hraw]
        simp only [iterSteps, hit, List.cons_append]
        rw [ih (Iter.mk rest)]
        simp [kvsOf, hraw]

/-- Claim C6: an arbitrary interleaving of front steps and back steps over a
range of `n` entries yields, once the cursor is exhausted, exactly the `n`
entries, each once (front yields ++ reversed back yields equals the range's
entry sequence, with no duplicates and no omissions); the front yields are in
ascending and the back yields in descending encoded-key order. -/
theorem iter_double_ended (ds : List Bool) (it : Iter)
    (hs : List.Pairwise (fun p q => byteLexLtB p.1 q.1 = true) it.raw) :
    (iterSteps ds it).1 ++ kvsOf (iterSteps ds it).2.2 ++ ((iterSteps ds it).2.1).reverse
        = kvsOf it ∧
    ((iterSteps ds it).2.2.raw = [] →
      (iterSteps ds it).1 ++ ((iterSteps ds it).2.1).reverse = kvsOf it) ∧
    List.Pairwise (fun a b : KeyValue => byteLexLtB a.raw_key b.raw_key = true)
      (iterSteps ds it).1 ∧
    List.Pairwise (fun a b : KeyValue => byteLexLtB b.raw_key a.raw_key = true)
      (iterSteps ds it).2.1 := by
  have hpart := iterSteps_partition ds it
  have hkvs : List.Pairwise (fun a b : KeyValue => byteLexLtB a.raw_key b.raw_key = true)
      (kvsOf it) := by
    rw [kvsOf, List.pairwise_map]
    exact hs
  refine ⟨hpart, ?_, ?_, ?_⟩
  · intro hempty
    have : kvsOf (iterSteps ds it).2.2 = [] := by simp [kvsOf, hempty]
    rw [this, List.append_nil] at hpart
    exact hpart
  · have hsub : ((iterSteps ds it).1).Sublist (kvsOf it) := by
      rw [← hpart]
      exact (List.sublist_append_left _ _).trans (List.sublist_append_left _ _)
    exact hkvs.sublist hsub
  · have hsuffix : (((iterSteps ds it).2.1).reverse).IsSuffix (kvsOf it) :=
      ⟨(iterSteps ds it).1 ++ kvsOf (iterSteps ds it).2.2, by
        rw [List.append_assoc] at hpart ⊢
        exact hpart⟩
    have hrev := hkvs.sublist hsuffix.sublist
    rw [List.pairwise_reverse] at hrev
    exact hrev

/-- Witness for C6: interleaving front, back, front, back over three sorted
entries yields all three, front yields ascending, back yields descending. -/
theorem iter_double_ended_witness :
    (iterSteps [true, false, true, false] (Iter.mk [([1], [10]), ([2], [20]), ([3], [30])])).1 ++
        kvsOf (iterSteps [true, false, true, false]
          (Iter.mk [([1], [10]), ([2], [20]), ([3], [30])])).2.2 ++
        ((iterSteps [true, false, true, false]
          (Iter.mk [([1], [10]), ([2], [20]), ([3], [30])])).2.1).reverse
      = kvsOf (Iter.mk [([1], [10]), ([2], [20]), ([3], [30])]) ∧
    ((iterSteps [true, false, true, false]
        (Iter.mk [([1], [10]), ([2], [20]), ([3], [30])])).2.2.raw = [] →
      (iterSteps [true, false, true, false]
          (Iter.mk [([1], [10]), ([2], [20]), ([3], [30])])).1 ++
        ((iterSteps [true, false, true, false]
          (Iter.mk [([1], [10]), ([2], [20]), ([3], [30])])).2.1).reverse
        = kvsOf (Iter.mk [([1], [10]), ([2], [20]), ([3], [30])])) ∧
    List.Pairwise (fun a b : KeyValue => byteLexLtB a.raw_key b.raw_key = true)
      (iterSteps [true, false, true, false]
        (Iter.mk [([1], [10]), ([2], [20]), ([3], [30])])).1 ∧
    List.Pairwise (fun a b : KeyValue => byteLexLtB b.raw_key a.raw_key = true)
      (iterSteps [true, false, true, false]
        (Iter.mk [([1], [10]), ([2], [20]), ([3], [30])])).2.1 :=
  iter_double_ended [true, false, true, false]
    (Iter.mk [([1], [10]), ([2], [20]), ([3], [30])]) (by decide)

end SledBincode
